import Mathlib

/-!
Verification of the polislite opinion-plotting pipeline (`plot_opinions.py`).

The Python source is shallowly embedded over exact rational arithmetic:

* `load_from_yaml` builds the vote matrix; `numpy.array` applied to a ragged
  list of rows raises, which is modelled by `npArray2D` returning `none`
  when the rows do not all share one length.
* `scipy.spatial.ConvexHull` on a 2-D point set raises a `QhullError`
  exactly when the points are all collinear (or coincident, or fewer than
  three); when it succeeds, `hull.vertices` are the extreme points of the
  input.  `ConvexHullVerts` models this: it fails on all-collinear input
  and otherwise returns the deduplicated input points that are extreme,
  where extremality is the decidable test "not contained in any triangle,
  segment or single point formed from the other points" (2-D Carathéodory).
  qhull additionally orders the vertices counterclockwise; no property
  below depends on the order, only on the vertex multiset, so the model
  keeps input order.
* `numpy.sqrt` has no total rational counterpart, so the buffering step is
  parametrised by a function `s : ℚ → ℚ` standing for `np.sqrt`; theorems
  about buffered geometry hypothesise exactly the defining equations of
  the square roots actually consumed (`0 ≤ s q` and `s q * s q = q`).
* matplotlib's `plt.cm.viridis` maps a float scalar to a color, clamping
  arguments outside `[0, 1]` to the endpoint colors; `viridisArg` models
  the sampled position after clamping (the finite 256-color palette
  resolution is abstracted: equal clamped positions give equal colors).
* `np.unique` returns the distinct values in ascending order, modelled by
  an insertion sort over the deduplicated list.
* Stateful matplotlib drawing is modelled by the `Figure` value collecting
  the hull patches (with their color argument), axis limits, markers and
  annotations; Python exceptions become `Except PlotError`.
-/

namespace PolisLite

attribute [local semireducible] Rat.add Rat.mul Rat.sub Rat.inv

/-- A 2-D point with exact rational coordinates. -/
abbrev Q2 := ℚ × ℚ

/-- Boolean equality on points, taken from decidable equality so that list
operations such as `List.erase` agree definitionally with the instances the
library lemmas are stated for. -/
instance (priority := 2000) beqQ2 : BEq Q2 := instBEqOfDecidableEq

/-- The boolean equality on points is lawful. -/
instance (priority := 2000) lawfulBeqQ2 : LawfulBEq Q2 where
  eq_of_beq h := of_decide_eq_true h
  rfl := decide_eq_true rfl

/-! ## Vote matrix builder (`load_from_yaml`, source lines 11-19) -/

/-- The parsed YAML document: a list of statements and an ordered mapping
from participant name to that participant's list of vote tokens. -/
structure Doc where
  statements : List String
  votes : List (String × List String)

/-- Embeds `vote_map.get(v, 0)` with `vote_map = {"agree": 1, "disagree": -1}`
(source line 14-16). -/
def voteMap (v : String) : Int :=
  if v = "agree" then 1 else if v = "disagree" then -1 else 0

/-- Embeds `np.array(votes)` on a list of rows: numpy raises a `ValueError`
on a ragged (inhomogeneous) nested list, and otherwise forms the 2-D array. -/
def npArray2D (rows : List (List Int)) : Option (List (List Int)) :=
  match rows with
  | [] => some []
  | r :: rs => if rs.all (fun row => row.length = r.length) then some (r :: rs) else none

/-- Embeds `load_from_yaml` (source lines 11-19): returns the statements, the
vote matrix and the participant names, or `none` when the array construction
fails. -/
def load_from_yaml (d : Doc) : Option (List String × List (List Int) × List String) :=
  (npArray2D (d.votes.map (fun u => u.2.map voteMap))).map
    (fun m => (d.statements, m, d.votes.map Prod.fst))

/-! ## Exact plane geometry used by the hull model -/

/-- Twice the signed area of the triangle `a b c`; the standard orientation
determinant. -/
def orient (a b c : Q2) : ℚ :=
  (b.1 - a.1) * (c.2 - a.2) - (b.2 - a.2) * (c.1 - a.1)

/-- Squared euclidean distance between two points. -/
def sqdist (u v : Q2) : ℚ :=
  (u.1 - v.1) ^ 2 + (u.2 - v.2) ^ 2

/-- Dot product of the vectors `p - a` and `q - a`. -/
def dotAt (a p q : Q2) : ℚ :=
  (p.1 - a.1) * (q.1 - a.1) + (p.2 - a.2) * (q.2 - a.2)

/-- Decidable test for `p` lying on the closed segment from `a` to `b`. -/
def onSegment (a b p : Q2) : Bool :=
  if a = b then decide (p = a)
  else decide (orient a b p = 0 ∧ 0 ≤ dotAt a p b ∧ dotAt a p b ≤ sqdist a b)

/-- Decidable test for `p` lying in the closed triangle `a b c`, stated for a
non-degenerate triangle via the orientation sign conditions (the barycentric
coordinates of `p`, scaled by the squared triangle determinant, are
nonnegative). -/
def inTriangle (a b c p : Q2) : Bool :=
  decide (orient a b c ≠ 0 ∧ 0 ≤ orient a b c * orient p b c ∧
    0 ≤ orient a b c * orient a p c ∧ 0 ≤ orient a b c * orient a b p)

/-- Decidable test for `p` lying in the convex hull of the points `o`: by
Carathéodory's theorem in the plane this holds iff `p` equals one of them,
lies on a segment between two of them, or lies in a non-degenerate triangle
of three of them. -/
def isCaptured (o : List Q2) (p : Q2) : Bool :=
  o.any (fun a => decide (p = a)) ||
    o.any (fun a => o.any (fun b => onSegment a b p)) ||
      o.any (fun a => o.any (fun b => o.any (fun c => inTriangle a b c p)))

/-- Decidable test for the whole input being collinear (every triple has a
vanishing orientation determinant); this is the condition under which qhull
fails on planar input. -/
def allCollinear (pts : List Q2) : Bool :=
  pts.all (fun a => pts.all (fun b => pts.all (fun c => decide (orient a b c = 0))))

/-- The extreme points of the input, in deduplicated input order: the model of
`hull.vertices` (as a point list, `cluster_points[hull.vertices]`). -/
def hullVertexList (pts : List Q2) : List Q2 :=
  let d := pts.dedup
  d.filter (fun p => !isCaptured (d.erase p) p)

/-- Embeds `ConvexHull(cluster_points)` followed by
`cluster_points[hull.vertices]` (source lines 31-32): fails (qhull error)
when the input is degenerate, otherwise yields the hull vertex points. -/
def ConvexHullVerts (pts : List Q2) : Option (List Q2) :=
  if allCollinear pts then none else some (hullVertexList pts)

/-! ## Buffered hull geometry (source lines 34-40) -/

/-- Embeds `centroid = np.mean(hull_points, axis=0)` (source line 35). -/
def centroid (l : List Q2) : Q2 :=
  ((l.map Prod.fst).sum / l.length, (l.map Prod.snd).sum / l.length)

/-- Embeds one row of `hull_points + normalized_vectors * 0.5`
(source lines 36-39), given the already-computed euclidean length `len` of
`v - c` (the corresponding entry of `lengths = np.sqrt(np.sum(vectors**2))`). -/
def bufferVertex (c v : Q2) (len : ℚ) : Q2 :=
  (v.1 + (v.1 - c.1) / len * (1 / 2), v.2 + (v.2 - c.2) / len * (1 / 2))

/-- Embeds the buffering of the hull vertex list and the closing
`np.vstack((buffered_points, buffered_points[0]))` (source lines 34-40);
`s` models `np.sqrt`. -/
def bufferedClosed (s : ℚ → ℚ) (hv : List Q2) : List Q2 :=
  let c := centroid hv
  let buffered := hv.map (fun v => bufferVertex c v (s (sqdist v c)))
  buffered ++ [buffered.headI]

/-! ## Rendering pipeline (`plot_opinion_clusters`, source lines 22-78) -/

/-- The exceptions the pipeline can raise: a qhull failure on a degenerate
cluster, numpy's reduction error on an empty coordinate array
(`points_2d[:, 0].min()`), and numpy's ragged-array error during
`load_from_yaml`. -/
inductive PlotError
  | qhullDegenerate
  | emptyPoints
  | raggedVotes
deriving DecidableEq, Repr

/-- Embeds the body of the `if len(cluster_points) >= 3` block (source lines
30-40) for one cluster: no polygon for fewer than three points, a qhull error
on degenerate input, otherwise the closed buffered polygon. -/
def clusterBoundary (s : ℚ → ℚ) (pts : List Q2) : Except PlotError (Option (List Q2)) :=
  if 3 ≤ pts.length then
    match ConvexHullVerts pts with
    | none => .error .qhullDegenerate
    | some hv => .ok (some (bufferedClosed s hv))
  else .ok none

/-- Insertion of an integer into a sorted list (ascending). -/
def insertSorted (x : Int) : List Int → List Int
  | [] => [x]
  | y :: ys => if x ≤ y then x :: y :: ys else y :: insertSorted x ys

/-- Insertion sort, ascending. -/
def sortInts : List Int → List Int
  | [] => []
  | x :: xs => insertSorted x (sortInts xs)

/-- Embeds `np.unique(clusters)` (source line 26): the distinct cluster labels
in ascending order. -/
def uniqueLabels (cls : List Int) : List Int :=
  sortInts cls.dedup

/-- Embeds the boolean mask selection `points_2d[clusters == cluster_id]`
(source lines 27-28). -/
def clusterPoints (points : List Q2) (cls : List Int) (cid : Int) : List Q2 :=
  ((points.zip cls).filter (fun pc => decide (pc.2 = cid))).map Prod.fst

/-- Embeds the color argument `cluster_id / len(np.unique(clusters))` passed
to the colormap (source line 43), as exact rational division. -/
def colorArg (cid : Int) (n : Nat) : ℚ :=
  (cid : ℚ) / (n : ℚ)

/-- Models sampling `plt.cm.viridis` at a scalar position: out-of-range
positions are clamped to the endpoint colors. -/
def viridisArg (x : ℚ) : ℚ :=
  max 0 (min 1 x)

/-- Modelled from the spec: "assign each cluster a distinct, deterministic
color drawn from a perceptually uniform colormap indexed by the cluster's
normalized rank among all distinct cluster labels" — the sample position
`rank / total` where `rank` is the label's index among the sorted distinct
labels.  Used only to compare the specified color rule with the code's
`colorArg`. -/
def rankColorArg (cls : List Int) (cid : Int) : ℚ :=
  ((uniqueLabels cls).indexOf cid : ℚ) / ((uniqueLabels cls).length : ℚ)

/-- One rendered hull patch: cluster label, clamped colormap position, and
the closed polygon. -/
abbrev Patch := Int × ℚ × List Q2

/-- Embeds the per-cluster loop `for cluster_id in np.unique(clusters)`
(source lines 26-44) over an explicit label list: the first qhull failure
aborts the whole loop (the exception propagates), clusters with fewer than
three members contribute no patch. -/
def drawHullsAux (s : ℚ → ℚ) (points : List Q2) (cls : List Int) (n : Nat) :
    List Int → Except PlotError (List Patch)
  | [] => .ok []
  | cid :: rest =>
    match clusterBoundary s (clusterPoints points cls cid) with
    | .error e => .error e
    | .ok none => drawHullsAux s points cls n rest
    | .ok (some poly) =>
      (drawHullsAux s points cls n rest).map
        (fun acc => (cid, viridisArg (colorArg cid n), poly) :: acc)

/-- The per-cluster hull-overlay loop (source lines 26-44). -/
def drawHulls (s : ℚ → ℚ) (points : List Q2) (cls : List Int) :
    Except PlotError (List Patch) :=
  drawHullsAux s points cls (uniqueLabels cls).length (uniqueLabels cls)

/-- Embeds `points_2d[:, 0].min()` resp. the same for `max` and axis 1:
numpy raises on an empty array. -/
def npMin (l : List ℚ) : Option ℚ :=
  match l with
  | [] => none
  | h :: t => some (t.foldl min h)

/-- Embeds `points_2d[:, 0].max()`; numpy raises on an empty array. -/
def npMax (l : List ℚ) : Option ℚ :=
  match l with
  | [] => none
  | h :: t => some (t.foldl max h)

/-- Embeds the viewport computation for one axis (source lines 60-65):
`padding = (max - min) * 0.2`, limits `(min - padding, max + padding)`. -/
def axisLimits (l : List ℚ) : Option (ℚ × ℚ) :=
  match npMin l, npMax l with
  | some mn, some mx => some (mn - (mx - mn) * (1 / 5), mx + (mx - mn) * (1 / 5))
  | _, _ => none

/-- The observable content of the matplotlib figure assembled by
`plot_opinion_clusters`: hull patches, axis limits, scatter markers and
participant annotations. -/
structure Figure where
  patches : List Patch
  xlim : ℚ × ℚ
  ylim : ℚ × ℚ
  markers : List Q2
  annotations : List String
deriving Repr

/-- Embeds `plot_opinion_clusters` (source lines 22-78): draws the hull
overlays, scatters the points with their annotations, and sets the padded
axis limits; any exception in these steps propagates. -/
def plot_opinion_clusters (s : ℚ → ℚ) (points : List Q2) (cls : List Int)
    (usernames : List String) : Except PlotError Figure :=
  match drawHulls s points cls with
  | .error e => .error e
  | .ok patches =>
    match axisLimits (points.map Prod.fst), axisLimits (points.map Prod.snd) with
    | some xl, some yl => .ok ⟨patches, xl, yl, points, usernames⟩
    | _, _ => .error .emptyPoints

/-! ## Pipeline orchestrator (`main`, source lines 81-92) -/

/-- Componentwise vector addition, for `points_2d + jitter`. -/
def add2 (u v : Q2) : Q2 :=
  (u.1 + v.1, u.2 + v.2)

/-- Embeds `main` (source lines 81-92), with the external analyzer passed in
as a function (`OpinionAnalyzer.analyze`) and the concrete draw of
`np.random.normal` passed in as the `jitter` list: load the document, run the
analyzer, jitter the points, render. -/
def mainPipeline (s : ℚ → ℚ)
    (analyze : List (List Int) → List String → List Q2 × List Int)
    (jitter : List Q2) (d : Doc) : Except PlotError Figure :=
  match load_from_yaml d with
  | none => .error .raggedVotes
  | some (sts, m, names) =>
    let res := analyze m sts
    plot_opinion_clusters s (List.zipWith add2 res.1 jitter) res.2 names

/-! ## Helper lemmas: list folds for `npMin` / `npMax` -/

lemma foldl_min_le_init (h : ℚ) (t : List ℚ) : t.foldl min h ≤ h := by
  induction t generalizing h with
  | nil => exact le_refl h
  | cons y ys ih =>
    calc (y :: ys).foldl min h = ys.foldl min (min h y) := rfl
    _ ≤ min h y := ih (min h y)
    _ ≤ h := min_le_left h y

lemma foldl_min_le_mem {x : ℚ} (h : ℚ) (t : List ℚ) (hx : x ∈ t) : t.foldl min h ≤ x := by
  induction t generalizing h with
  | nil => cases hx
  | cons y ys ih =>
    rcases List.mem_cons.mp hx with hxy | hxs
    · subst hxy
      calc (x :: ys).foldl min h = ys.foldl min (min h x) := rfl
      _ ≤ min h x := foldl_min_le_init (min h x) ys
      _ ≤ x := min_le_right h x
    · exact ih (min h y) hxs

lemma le_foldl_max_init (h : ℚ) (t : List ℚ) : h ≤ t.foldl max h := by
  induction t generalizing h with
  | nil => exact le_refl h
  | cons y ys ih =>
    calc h ≤ max h y := le_max_left h y
    _ ≤ ys.foldl max (max h y) := ih (max h y)
    _ = (y :: ys).foldl max h := rfl

lemma le_foldl_max_mem {x : ℚ} (h : ℚ) (t : List ℚ) (hx : x ∈ t) : x ≤ t.foldl max h := by
  induction t generalizing h with
  | nil => cases hx
  | cons y ys ih =>
    rcases List.mem_cons.mp hx with hxy | hxs
    · subst hxy
      calc x ≤ max h x := le_max_right h x
      _ ≤ ys.foldl max (max h x) := le_foldl_max_init (max h x) ys
      _ = (x :: ys).foldl max h := rfl
    · exact ih (max h y) hxs

lemma npMin_le {l : List ℚ} {mn x : ℚ} (hm : npMin l = some mn) (hx : x ∈ l) : mn ≤ x := by
  match l, hx with
  | h :: t, hx =>
    have hmn : mn = t.foldl min h := by
      simpa [npMin] using hm.symm
    subst hmn
    rcases List.mem_cons.mp hx with hxy | hxs
    · subst hxy; exact foldl_min_le_init x t
    · exact foldl_min_le_mem h t hxs

lemma le_npMax {l : List ℚ} {mx x : ℚ} (hm : npMax l = some mx) (hx : x ∈ l) : x ≤ mx := by
  match l, hx with
  | h :: t, hx =>
    have hmx : mx = t.foldl max h := by
      simpa [npMax] using hm.symm
    subst hmx
    rcases List.mem_cons.mp hx with hxy | hxs
    · subst hxy; exact le_foldl_max_init x t
    · exact le_foldl_max_mem h t hxs

lemma npMin_isSome {l : List ℚ} (h : l ≠ []) : (npMin l).isSome := by
  cases l with
  | nil => exact absurd rfl h
  | cons a t => simp [npMin]

lemma npMax_isSome {l : List ℚ} (h : l ≠ []) : (npMax l).isSome := by
  cases l with
  | nil => exact absurd rfl h
  | cons a t => simp [npMax]

/-! ## Claim C5: the vote lexicon -/

/-- C5: the builder maps the token "agree" to +1, "disagree" to -1, and every
other token (including the empty string and misspellings) to 0; in particular
the row built from ["agree", "disagree", "maybe"] is [1, -1, 0]. -/
theorem vote_mapping :
    voteMap "agree" = 1 ∧ voteMap "disagree" = -1 ∧
    (∀ t : String, t ≠ "agree" → t ≠ "disagree" → voteMap t = 0) ∧
    ["agree", "disagree", "maybe"].map voteMap = [1, -1, 0] := by
  refine ⟨by decide, by decide, ?_, by decide⟩
  intro t h1 h2
  simp [voteMap, h1, h2]

/-- C5 witness: the general neutral-token clause evaluated at the concrete
token "maybe". -/
theorem vote_mapping_witness : voteMap "maybe" = 0 :=
  vote_mapping.2.2.1 "maybe" (by decide) (by decide)

/-! ## Claim C6: the padded viewport contains every plotted point -/

/-- C6: for a point list with positive span, the axis limits are the minimum
minus 20% of the span and the maximum plus 20% of the span, and every plotted
coordinate lies between them. -/
theorem viewport_contains_points (xs : List ℚ) (x : ℚ) (hx : x ∈ xs) (mn mx : ℚ)
    (hmn : npMin xs = some mn) (hmx : npMax xs = some mx) (hspan : 0 < mx - mn) :
    axisLimits xs = some (mn - (mx - mn) * (1 / 5), mx + (mx - mn) * (1 / 5)) ∧
    mn - (mx - mn) * (1 / 5) ≤ x ∧ x ≤ mx + (mx - mn) * (1 / 5) := by
  refine ⟨by simp [axisLimits, hmn, hmx], ?_, ?_⟩
  · have h1 := npMin_le hmn hx
    linarith
  · have h1 := le_npMax hmx hx
    linarith

/-- C6 witness: the viewport bounds evaluated on the concrete coordinate list
[0, 1] at the member 0. -/
theorem viewport_contains_points_witness :
    axisLimits [(0 : ℚ), 1] = some (0 - (1 - 0) * (1 / 5), 1 + (1 - 0) * (1 / 5)) ∧
    0 - ((1 : ℚ) - 0) * (1 / 5) ≤ 0 ∧ (0 : ℚ) ≤ 1 + (1 - 0) * (1 / 5) :=
  viewport_contains_points [0, 1] 0 (by decide) 0 1 (by decide) (by decide) (by decide)

/-! ## Claim C10: rendering needs a nonempty point set -/

/-- C10: called with zero points the renderer fails (numpy's reduction over an
empty coordinate array) instead of producing a figure; with at least one
participant the viewport computation on each axis is well-defined. -/
theorem render_requires_nonempty :
    (∀ (s : ℚ → ℚ) (names : List String),
      plot_opinion_clusters s [] [] names = .error .emptyPoints) ∧
    (∀ points : List Q2, points ≠ [] →
      (axisLimits (points.map Prod.fst)).isSome ∧ (axisLimits (points.map Prod.snd)).isSome) := by
  constructor
  · intro s names
    rfl
  · intro points hne
    have hx : points.map Prod.fst ≠ [] := by simpa using hne
    have hy : points.map Prod.snd ≠ [] := by simpa using hne
    constructor
    · have h1 := npMin_isSome hx
      have h2 := npMax_isSome hx
      unfold axisLimits
      cases hm : npMin (points.map Prod.fst) with
      | none => rw [hm] at h1; cases h1
      | some mn =>
        cases hM : npMax (points.map Prod.fst) with
        | none => rw [hM] at h2; cases h2
        | some mx => simp
    · have h1 := npMin_isSome hy
      have h2 := npMax_isSome hy
      unfold axisLimits
      cases hm : npMin (points.map Prod.snd) with
      | none => rw [hm] at h1; cases h1
      | some mn =>
        cases hM : npMax (points.map Prod.snd) with
        | none => rw [hM] at h2; cases h2
        | some mx => simp

/-- C10 witness: the nonempty clause evaluated at the single point (1, 2). -/
theorem render_requires_nonempty_witness :
    (axisLimits ([((1 : ℚ), (2 : ℚ))].map Prod.fst)).isSome ∧
    (axisLimits ([((1 : ℚ), (2 : ℚ))].map Prod.snd)).isSome :=
  render_requires_nonempty.2 [(1, 2)] (by decide)

/-! ## Claim C1: when the builder fails on a length mismatch -/

lemma npArray2D_eq_none_of_two_lengths {rows : List (List Int)} {r1 r2 : List Int}
    (h1 : r1 ∈ rows) (h2 : r2 ∈ rows) (hne : r1.length ≠ r2.length) :
    npArray2D rows = none := by
  cases rows with
  | nil => cases h1
  | cons r rs =>
    unfold npArray2D
    by_cases hall : rs.all (fun row => row.length = r.length)
    · exfalso
      have hlen : ∀ row ∈ r :: rs, row.length = r.length := by
        intro row hrow
        rcases List.mem_cons.mp hrow with h | h
        · rw [h]
        · have := List.all_eq_true.mp hall row h
          simpa using this
      exact hne ((hlen r1 h1).trans (hlen r2 h2).symm)
    · simp only [Bool.not_eq_true] at hall
      simp [hall]

/-- C1 amended: the builder fails fast, before the external analyzer runs,
exactly when two participants' vote sequences have different lengths (the
numeric array cannot be formed); a uniform mismatch against the statement
count is not detected by the builder. -/
theorem ragged_votes_fail_before_analyzer (d : Doc)
    (h : ∃ u ∈ d.votes, ∃ w ∈ d.votes, u.2.length ≠ w.2.length) :
    load_from_yaml d = none ∧
    ∀ (s : ℚ → ℚ) (analyze : List (List Int) → List String → List Q2 × List Int)
      (jitter : List Q2), mainPipeline s analyze jitter d = .error .raggedVotes := by
  obtain ⟨u, hu, w, hw, hlen⟩ := h
  have hnone : npArray2D (d.votes.map (fun v => v.2.map voteMap)) = none := by
    refine npArray2D_eq_none_of_two_lengths
      (List.mem_map_of_mem (fun v => v.2.map voteMap) hu)
      (List.mem_map_of_mem (fun v => v.2.map voteMap) hw) ?_
    simpa using hlen
  have hload : load_from_yaml d = none := by
    simp [load_from_yaml, hnone]
  exact ⟨hload, fun s analyze jitter => by simp [mainPipeline, hload]⟩

/-- A document whose two participants have vote lists of different lengths. -/
def raggedDoc : Doc :=
  ⟨["s1", "s2"], [("alice", ["agree"]), ("bob", ["agree", "disagree"])]⟩

/-- C1 witness: the ragged document fails in the builder and the pipeline
reports the error for any analyzer, jitter draw and square-root model. -/
theorem ragged_votes_fail_before_analyzer_witness :
    load_from_yaml raggedDoc = none ∧
    mainPipeline (fun _ => 0) (fun _ _ => ([], [])) [] raggedDoc = .error .raggedVotes := by
  have h := ragged_votes_fail_before_analyzer raggedDoc
    ⟨("alice", ["agree"]), by decide, ("bob", ["agree", "disagree"]), by decide, by decide⟩
  exact ⟨h.1, h.2 (fun _ => 0) (fun _ _ => ([], [])) []⟩

/-- A document in which every participant cast three votes although only two
statements exist: the rows agree with each other, so the array forms. -/
def uniformMismatchDoc : Doc :=
  ⟨["s1", "s2"],
    [("alice", ["agree", "agree", "agree"]), ("bob", ["disagree", "agree", "agree"])]⟩

/-- C1 counterexample: a participant whose vote count differs from the
statement count does not make the pipeline fail before the analyzer call:
with every row of length 3 against 2 statements, the builder succeeds and the
pipeline runs the analyzer and completes. -/
theorem uniform_mismatch_reaches_analyzer :
    uniformMismatchDoc.statements.length = 2 ∧
    uniformMismatchDoc.votes.map (fun u => u.2.length) = [3, 3] ∧
    (load_from_yaml uniformMismatchDoc).isSome = true ∧
    (mainPipeline (fun _ => 0) (fun _ _ => ([(0, 0), (1, 1)], [0, 0])) [(0, 0), (0, 0)]
      uniformMismatchDoc).isOk = true := by
  refine ⟨by decide, by decide, by decide, by decide⟩

/-! ## Claim C2: cluster colors -/

/-- C2 amended: the overlay color position is the label's numeric value
divided by the number of distinct labels, clamped by the colormap to [0, 1];
it is deterministic, and distinct labels receive distinct colors when every
label value lies in [0, number of distinct labels); out-of-range labels can
collide at the clamp. -/
theorem labels_in_range_distinct_colors (n : ℕ) (a b : Int)
    (ha0 : 0 ≤ a) (han : a < (n : Int)) (hb0 : 0 ≤ b) (hbn : b < (n : Int)) (hab : a ≠ b) :
    viridisArg (colorArg a n) ≠ viridisArg (colorArg b n) := by
  have hn : (0 : ℚ) < (n : ℚ) := by
    have : (0 : Int) < (n : Int) := lt_of_le_of_lt ha0 han
    exact_mod_cast this
  have hid : ∀ c : Int, 0 ≤ c → c < (n : Int) → viridisArg (colorArg c n) = (c : ℚ) / (n : ℚ) := by
    intro c hc0 hcn
    have hc0q : (0 : ℚ) ≤ (c : ℚ) / (n : ℚ) := by
      apply div_nonneg _ (le_of_lt hn)
      exact_mod_cast hc0
    have hcnq : (c : ℚ) / (n : ℚ) < 1 := by
      rw [div_lt_one hn]
      exact_mod_cast hcn
    unfold viridisArg colorArg
    rw [min_eq_right (le_of_lt hcnq), max_eq_right hc0q]
  rw [hid a ha0 han, hid b hb0 hbn]
  intro heq
  apply hab
  field_simp at heq
  exact_mod_cast heq

/-- C2 amended witness: labels 0 and 1 among two distinct labels receive
distinct color positions. -/
theorem labels_in_range_distinct_colors_witness :
    viridisArg (colorArg 0 2) ≠ viridisArg (colorArg 1 2) :=
  labels_in_range_distinct_colors 2 0 1 (by decide) (by decide) (by decide) (by decide)
    (by decide)

/-- Two well-separated non-collinear triangles, with rational hull-vertex
distances from their centroids (5, 5 and 8 each). -/
def colorDemoPoints : List Q2 :=
  [(-3, 0), (3, 0), (0, 12), (97, 0), (103, 0), (100, 12)]

/-- Cluster labels 2 and 3 for the two triangles. -/
def colorDemoClusters : List Int := [2, 2, 2, 3, 3, 3]

/-- A concrete model of `np.sqrt` defined at the squared distances that the
demo clusters produce. -/
def demoSqrt : ℚ → ℚ := fun q => if q = 25 then 5 else if q = 64 then 8 else 0

/-- C2 counterexample: the color position is the label's numeric value (not
its rank) divided by the distinct-label count, so the distinct labels 2 and 3
of two rendered clusters both clamp to the top color position 1, while the
rank rule of the specification would give the distinct positions 0 and 1/2. -/
theorem distinct_labels_same_color :
    uniqueLabels colorDemoClusters = [2, 3] ∧
    (drawHulls demoSqrt colorDemoPoints colorDemoClusters).toOption.map
      (fun l => l.map (fun t : Patch => (t.1, t.2.1))) = some [(2, 1), (3, 1)] ∧
    [rankColorArg colorDemoClusters 2, rankColorArg colorDemoClusters 3] = [0, 1 / 2] := by
  refine ⟨by decide, by decide, by decide⟩

/-! ## Claim C7: a degenerate cluster's qhull failure -/

lemma mem_insertSorted {a x : Int} {l : List Int} :
    a ∈ insertSorted x l ↔ a = x ∨ a ∈ l := by
  induction l with
  | nil => simp [insertSorted]
  | cons y ys ih =>
    unfold insertSorted
    by_cases h : x ≤ y
    · simp [h]
    · simp only [if_neg h, List.mem_cons, ih]
      tauto

lemma mem_sortInts {a : Int} {l : List Int} : a ∈ sortInts l ↔ a ∈ l := by
  induction l with
  | nil => simp [sortInts]
  | cons y ys ih => simp [sortInts, mem_insertSorted, ih]

lemma mem_uniqueLabels {cid : Int} {cls : List Int} (h : cid ∈ cls) :
    cid ∈ uniqueLabels cls := by
  unfold uniqueLabels
  rw [mem_sortInts, List.mem_dedup]
  exact h

lemma clusterBoundary_error_eq {s : ℚ → ℚ} {pts : List Q2} {e : PlotError}
    (h : clusterBoundary s pts = .error e) : e = .qhullDegenerate := by
  unfold clusterBoundary at h
  by_cases hlen : 3 ≤ pts.length
  · rw [if_pos hlen] at h
    cases hch : ConvexHullVerts pts with
    | none => rw [hch] at h; cases h; rfl
    | some hv => rw [hch] at h; cases h
  · rw [if_neg hlen] at h
    cases h

lemma clusterBoundary_degenerate {s : ℚ → ℚ} {pts : List Q2}
    (hlen : 3 ≤ pts.length) (hdeg : allCollinear pts = true) :
    clusterBoundary s pts = .error .qhullDegenerate := by
  unfold clusterBoundary ConvexHullVerts
  rw [if_pos hlen, hdeg]
  rfl

lemma drawHullsAux_error_of_mem (s : ℚ → ℚ) (points : List Q2) (cls : List Int) (n : Nat)
    (l : List Int) (cid : Int) (hmem : cid ∈ l)
    (hlen : 3 ≤ (clusterPoints points cls cid).length)
    (hdeg : allCollinear (clusterPoints points cls cid) = true) :
    drawHullsAux s points cls n l = .error .qhullDegenerate := by
  induction l with
  | nil => cases hmem
  | cons head rest ih =>
    unfold drawHullsAux
    by_cases hh : head = cid
    · subst hh
      rw [clusterBoundary_degenerate hlen hdeg]
    · have hmem2 : cid ∈ rest := by
        rcases List.mem_cons.mp hmem with h | h
        · exact absurd h.symm hh
        · exact h
      cases hcb : clusterBoundary s (clusterPoints points cls head) with
      | error e => rw [clusterBoundary_error_eq hcb]
      | ok o =>
        cases o with
        | none => exact ih hmem2
        | some poly => rw [ih hmem2]; rfl

/-- C7 amended: a cluster of at least three coincident or collinear points
makes the hull call raise, and since the loop has no per-cluster handler the
exception aborts the whole rendering run: the error is surfaced (never
silently swallowed) but no figure is produced and the remaining clusters are
not rendered. -/
theorem degenerate_cluster_error_never_swallowed (s : ℚ → ℚ) (points : List Q2)
    (cls : List Int) (names : List String) (cid : Int) (hmem : cid ∈ cls)
    (hlen : 3 ≤ (clusterPoints points cls cid).length)
    (hdeg : allCollinear (clusterPoints points cls cid) = true) :
    plot_opinion_clusters s points cls names = .error .qhullDegenerate := by
  have hdraw : drawHulls s points cls = .error .qhullDegenerate :=
    drawHullsAux_error_of_mem s points cls (uniqueLabels cls).length (uniqueLabels cls) cid
      (mem_uniqueLabels hmem) hlen hdeg
  unfold plot_opinion_clusters
  rw [hdraw]

/-- C7 amended witness: a run whose cluster 5 consists of three collinear
points aborts with the qhull error. -/
theorem degenerate_cluster_error_never_swallowed_witness :
    plot_opinion_clusters (fun _ => 0) [(0, 0), (2, 2), (4, 4), (9, 9)] [5, 5, 5, 9]
      ["a", "b", "c", "d"] = .error .qhullDegenerate :=
  degenerate_cluster_error_never_swallowed (fun _ => 0) [(0, 0), (2, 2), (4, 4), (9, 9)]
    [5, 5, 5, 9] ["a", "b", "c", "d"] 5 (by decide) (by decide) (by decide)

/-- Points for a run with a degenerate cluster 0 (three collinear points) and
a healthy cluster 1 (a non-degenerate triangle). -/
def degenDemoPoints : List Q2 := [(0, 0), (1, 0), (2, 0), (-3, 0), (3, 0), (0, 12)]

/-- Labels for `degenDemoPoints`. -/
def degenDemoClusters : List Int := [0, 0, 0, 1, 1, 1]

/-- C7 counterexample: the degenerate cluster 0 makes the whole run fail, so
the run does not complete rendering the healthy cluster 1 — even though the
same healthy cluster renders fine on its own. -/
theorem degenerate_cluster_aborts_run :
    plot_opinion_clusters demoSqrt degenDemoPoints degenDemoClusters
      ["a", "b", "c", "d", "e", "f"] = .error .qhullDegenerate ∧
    allCollinear (clusterPoints degenDemoPoints degenDemoClusters 0) = true ∧
    (plot_opinion_clusters demoSqrt [(-3, 0), (3, 0), (0, 12)] [1, 1, 1]
      ["d", "e", "f"]).isOk = true := by
  refine ⟨by rfl, by decide, by rfl⟩

/-! ## Exact-geometry lemmas about `orient`, `sqdist` and the capture tests -/

lemma orient_self_left (a c : Q2) : orient a a c = 0 := by
  unfold orient; ring

lemma orient_self_right (a b : Q2) : orient a b b = 0 := by
  unfold orient; ring

lemma orient_self_outer (a b : Q2) : orient a b a = 0 := by
  unfold orient; ring

lemma sqdist_nonneg (u v : Q2) : 0 ≤ sqdist u v := by
  unfold sqdist; positivity

lemma sqdist_eq_zero_iff (u v : Q2) : sqdist u v = 0 ↔ u = v := by
  unfold sqdist
  constructor
  · intro h
    have h1 : (u.1 - v.1) ^ 2 = 0 := by nlinarith [sq_nonneg (u.1 - v.1), sq_nonneg (u.2 - v.2)]
    have h2 : (u.2 - v.2) ^ 2 = 0 := by nlinarith [sq_nonneg (u.1 - v.1), sq_nonneg (u.2 - v.2)]
    have e1 : u.1 = v.1 := by nlinarith [sq_nonneg (u.1 - v.1)]
    have e2 : u.2 = v.2 := by nlinarith [sq_nonneg (u.2 - v.2)]
    exact Prod.ext e1 e2
  · intro h
    subst h
    ring

lemma sqdist_pos_of_ne {u v : Q2} (h : u ≠ v) : 0 < sqdist u v := by
  rcases lt_or_eq_of_le (sqdist_nonneg u v) with hlt | heq
  · exact hlt
  · exact absurd ((sqdist_eq_zero_iff u v).mp heq.symm) h

/-- The affine action of `orient` on a convex combination in each slot:
the three sub-determinants of a combination point scale the main
determinant by the respective weights. -/
lemma orient_affine_combo (a b c p : Q2) (w1 w2 w3 : ℚ) (hsum : w1 + w2 + w3 = 1)
    (h1 : p.1 = w1 * a.1 + w2 * b.1 + w3 * c.1) (h2 : p.2 = w1 * a.2 + w2 * b.2 + w3 * c.2) :
    orient p b c = w1 * orient a b c ∧ orient a p c = w2 * orient a b c ∧
    orient a b p = w3 * orient a b c := by
  have hw3 : w3 = 1 - w1 - w2 := by linarith
  subst hw3
  refine ⟨?_, ?_, ?_⟩ <;> (unfold orient; rw [h1, h2]; ring)

/-- Barycentric reconstruction: for a non-degenerate triangle the three
normalized sub-determinants are convex-combination weights reproducing `p`. -/
lemma barycentric_identity (a b c p : Q2) (hD : orient a b c ≠ 0) :
    orient p b c / orient a b c + orient a p c / orient a b c +
      orient a b p / orient a b c = 1 ∧
    p.1 = (orient p b c / orient a b c) * a.1 + (orient a p c / orient a b c) * b.1 +
      (orient a b p / orient a b c) * c.1 ∧
    p.2 = (orient p b c / orient a b c) * a.2 + (orient a p c / orient a b c) * b.2 +
      (orient a b p / orient a b c) * c.2 := by
  refine ⟨?_, ?_, ?_⟩ <;> (unfold orient at hD ⊢; field_simp; ring)

/-! ### A lexicographic order on exact points, used to find extreme witnesses -/

/-- Strict lexicographic order on points: smaller x, or equal x and smaller
y. -/
def lexLt (u v : Q2) : Prop :=
  u.1 < v.1 ∨ (u.1 = v.1 ∧ u.2 < v.2)

lemma lexLt_trans {u v w : Q2} (h1 : lexLt u v) (h2 : lexLt v w) : lexLt u w := by
  unfold lexLt at h1 h2 ⊢
  rcases h1 with h1 | ⟨h1e, h1y⟩ <;> rcases h2 with h2 | ⟨h2e, h2y⟩
  · exact Or.inl (lt_trans h1 h2)
  · exact Or.inl (h2e ▸ h1)
  · exact Or.inl (h1e ▸ h2)
  · exact Or.inr ⟨h1e.trans h2e, lt_trans h1y h2y⟩
lemma lexLt_asymm {u v : Q2} (h1 : lexLt u v) (h2 : lexLt v u) : False := by
  unfold lexLt at h1 h2
  rcases h1 with h1 | ⟨h1e, h1y⟩ <;> rcases h2 with h2 | ⟨h2e, h2y⟩ <;> linarith

lemma lexLt_total {u v : Q2} (h : u ≠ v) : lexLt u v ∨ lexLt v u := by
  unfold lexLt
  rcases lt_trichotomy u.1 v.1 with hx | hx | hx
  · exact Or.inl (Or.inl hx)
  · rcases lt_trichotomy u.2 v.2 with hy | hy | hy
    · exact Or.inl (Or.inr ⟨hx, hy⟩)
    · exact absurd (Prod.ext hx hy) h
    · exact Or.inr (Or.inr ⟨hx.symm, hy⟩)
  · exact Or.inr (Or.inl hx)

lemma exists_lexmin (l : List Q2) (h : l ≠ []) :
    ∃ m ∈ l, ∀ q ∈ l, q ≠ m → lexLt m q := by
  induction l with
  | nil => exact absurd rfl h
  | cons a t ih =>
    cases t with
    | nil =>
      exact ⟨a, List.mem_cons_self a [], by
        intro q hq hne
        rcases List.mem_cons.mp hq with h | h
        · exact absurd h hne
        · cases h⟩
    | cons b u =>
      obtain ⟨m, hm, hmin⟩ := ih (by simp)
      by_cases ham : a = m
      · refine ⟨m, List.mem_cons_of_mem a hm, ?_⟩
        intro q hq hne
        rcases List.mem_cons.mp hq with h | h
        · exact absurd (ham ▸ h) hne
        · exact hmin q h hne
      · rcases lexLt_total ham with hlt | hlt
        · refine ⟨a, List.mem_cons_self a _, ?_⟩
          intro q hq hne
          rcases List.mem_cons.mp hq with h | h
          · exact absurd h hne
          · by_cases hqm : q = m
            · exact hqm ▸ hlt
            · exact lexLt_trans hlt (hmin q h hqm)
        · refine ⟨m, List.mem_cons_of_mem a hm, ?_⟩
          intro q hq hne
          rcases List.mem_cons.mp hq with h | h
          · exact h ▸ hlt
          · exact hmin q h hne

lemma exists_lexmax (l : List Q2) (h : l ≠ []) :
    ∃ m ∈ l, ∀ q ∈ l, q ≠ m → lexLt q m := by
  induction l with
  | nil => exact absurd rfl h
  | cons a t ih =>
    cases t with
    | nil =>
      exact ⟨a, List.mem_cons_self a [], by
        intro q hq hne
        rcases List.mem_cons.mp hq with h | h
        · exact absurd h hne
        · cases h⟩
    | cons b u =>
      obtain ⟨m, hm, hmax⟩ := ih (by simp)
      by_cases ham : a = m
      · refine ⟨m, List.mem_cons_of_mem a hm, ?_⟩
        intro q hq hne
        rcases List.mem_cons.mp hq with h | h
        · exact absurd (ham ▸ h) hne
        · exact hmax q h hne
      · rcases lexLt_total ham with hlt | hlt
        · refine ⟨m, List.mem_cons_of_mem a hm, ?_⟩
          intro q hq hne
          rcases List.mem_cons.mp hq with h | h
          · exact h ▸ hlt
          · exact hmax q h hne
        · refine ⟨a, List.mem_cons_self a _, ?_⟩
          intro q hq hne
          rcases List.mem_cons.mp hq with h | h
          · exact absurd h hne
          · by_cases hqm : q = m
            · exact hqm ▸ hlt
            · exact lexLt_trans (hmax q h hqm) hlt

/-- A point that is lexicographically below three points cannot be a convex
combination of them. -/
lemma no_combo_of_lexLt (p a b c : Q2) (w1 w2 w3 : ℚ)
    (h1 : 0 ≤ w1) (h2 : 0 ≤ w2) (h3 : 0 ≤ w3) (hsum : w1 + w2 + w3 = 1)
    (hp1 : p.1 = w1 * a.1 + w2 * b.1 + w3 * c.1)
    (hp2 : p.2 = w1 * a.2 + w2 * b.2 + w3 * c.2)
    (hla : lexLt p a) (hlb : lexLt p b) (hlc : lexLt p c) : False := by
  have hax : p.1 ≤ a.1 := by rcases hla with h | ⟨he, _⟩; exact le_of_lt h; exact le_of_eq he
  have hbx : p.1 ≤ b.1 := by rcases hlb with h | ⟨he, _⟩; exact le_of_lt h; exact le_of_eq he
  have hcx : p.1 ≤ c.1 := by rcases hlc with h | ⟨he, _⟩; exact le_of_lt h; exact le_of_eq he
  have s1 : 0 ≤ w1 * (a.1 - p.1) := mul_nonneg h1 (by linarith)
  have s2 : 0 ≤ w2 * (b.1 - p.1) := mul_nonneg h2 (by linarith)
  have s3 : 0 ≤ w3 * (c.1 - p.1) := mul_nonneg h3 (by linarith)
  have hsx : w1 * (a.1 - p.1) + w2 * (b.1 - p.1) + w3 * (c.1 - p.1) = 0 := by
    linear_combination (-1 : ℚ) * hp1 - p.1 * hsum
  have t1 : w1 * (a.1 - p.1) = 0 := by linarith
  have t2 : w2 * (b.1 - p.1) = 0 := by linarith
  have t3 : w3 * (c.1 - p.1) = 0 := by linarith
  have hxeq : ∀ w : ℚ, ∀ u : Q2, 0 < w → w * (u.1 - p.1) = 0 → u.1 = p.1 := by
    intro w u hw hx
    rcases mul_eq_zero.mp hx with h0 | h0
    · exact absurd h0.symm (ne_of_lt hw)
    · linarith
  have y1 : 0 ≤ w1 * (a.2 - p.2) := by
    rcases eq_or_lt_of_le h1 with hw | hw
    · rw [← hw]; ring_nf; exact le_refl 0
    · rcases hla with h | ⟨_, hy⟩
      · exact absurd (hxeq w1 a hw t1) (ne_of_gt h)
      · exact mul_nonneg (le_of_lt hw) (by linarith)
  have y2 : 0 ≤ w2 * (b.2 - p.2) := by
    rcases eq_or_lt_of_le h2 with hw | hw
    · rw [← hw]; ring_nf; exact le_refl 0
    · rcases hlb with h | ⟨_, hy⟩
      · exact absurd (hxeq w2 b hw t2) (ne_of_gt h)
      · exact mul_nonneg (le_of_lt hw) (by linarith)
  have y3 : 0 ≤ w3 * (c.2 - p.2) := by
    rcases eq_or_lt_of_le h3 with hw | hw
    · rw [← hw]; ring_nf; exact le_refl 0
    · rcases hlc with h | ⟨_, hy⟩
      · exact absurd (hxeq w3 c hw t3) (ne_of_gt h)
      · exact mul_nonneg (le_of_lt hw) (by linarith)
  have hzero : w1 * (a.2 - p.2) + w2 * (b.2 - p.2) + w3 * (c.2 - p.2) = 0 := by
    linear_combination (-1 : ℚ) * hp2 - p.2 * hsum
  have hw1z : w1 * (a.2 - p.2) = 0 := by linarith
  have hw2z : w2 * (b.2 - p.2) = 0 := by linarith
  have hw3z : w3 * (c.2 - p.2) = 0 := by linarith
  have hpos : ∀ w : ℚ, ∀ u : Q2, 0 ≤ w → w * (u.1 - p.1) = 0 → w * (u.2 - p.2) = 0 →
      lexLt p u → w = 0 := by
    intro w u hw hx hy hl
    rcases eq_or_lt_of_le hw with h | h
    · exact h.symm
    · exfalso
      rcases hl with hlt | ⟨_, hy2⟩
      · exact absurd (hxeq w u h hx) (ne_of_gt hlt)
      · have hye : u.2 = p.2 := by
          rcases mul_eq_zero.mp hy with h0 | h0
          · exact absurd h0.symm (ne_of_lt h)
          · linarith
        exact absurd hye (ne_of_gt hy2)
  have hz1 := hpos w1 a h1 t1 hw1z hla
  have hz2 := hpos w2 b h2 t2 hw2z hlb
  have hz3 := hpos w3 c h3 t3 hw3z hlc
  rw [hz1, hz2, hz3] at hsum
  norm_num at hsum

/-- A point that is lexicographically above three points cannot be a convex
combination of them. -/
lemma no_combo_of_lexGt (p a b c : Q2) (w1 w2 w3 : ℚ)
    (h1 : 0 ≤ w1) (h2 : 0 ≤ w2) (h3 : 0 ≤ w3) (hsum : w1 + w2 + w3 = 1)
    (hp1 : p.1 = w1 * a.1 + w2 * b.1 + w3 * c.1)
    (hp2 : p.2 = w1 * a.2 + w2 * b.2 + w3 * c.2)
    (hla : lexLt a p) (hlb : lexLt b p) (hlc : lexLt c p) : False := by
  have hrefl : ∀ u : Q2, lexLt u p → lexLt ((-p.1, -p.2) : Q2) ((-u.1, -u.2) : Q2) := by
    intro u h
    rcases h with h | ⟨he, hy⟩
    · exact Or.inl (by simpa using h)
    · exact Or.inr ⟨by simpa using he.symm, by simpa using hy⟩
  refine no_combo_of_lexLt (-p.1, -p.2) (-a.1, -a.2) (-b.1, -b.2) (-c.1, -c.2) w1 w2 w3
    h1 h2 h3 hsum ?_ ?_ (hrefl a hla) (hrefl b hlb) (hrefl c hlc)
  · simp only
    linarith [hp1]
  · simp only
    linarith [hp2]

/-! ### Soundness and completeness of the segment and triangle tests -/

lemma onSegment_sound {a b p : Q2} (h : onSegment a b p = true) :
    ∃ t : ℚ, 0 ≤ t ∧ t ≤ 1 ∧ p.1 = (1 - t) * a.1 + t * b.1 ∧ p.2 = (1 - t) * a.2 + t * b.2 := by
  unfold onSegment at h
  by_cases hab : a = b
  · rw [if_pos hab] at h
    have hpa : p = a := of_decide_eq_true h
    exact ⟨0, le_refl 0, by norm_num, by rw [hpa]; ring, by rw [hpa]; ring⟩
  · rw [if_neg hab] at h
    obtain ⟨hor, hd0, hdS⟩ := of_decide_eq_true h
    have hS : 0 < sqdist a b := sqdist_pos_of_ne hab
    refine ⟨dotAt a p b / sqdist a b, div_nonneg hd0 (le_of_lt hS),
      (div_le_one hS).mpr hdS, ?_, ?_⟩
    · have key : (p.1 - a.1) * sqdist a b = dotAt a p b * (b.1 - a.1) := by
        unfold sqdist dotAt
        unfold orient at hor
        linear_combination (-(b.2 - a.2)) * hor
      field_simp
      linear_combination key
    · have key : (p.2 - a.2) * sqdist a b = dotAt a p b * (b.2 - a.2) := by
        unfold sqdist dotAt
        unfold orient at hor
        linear_combination (b.1 - a.1) * hor
      field_simp
      linear_combination key

lemma onSegment_complete {a b p : Q2} {t : ℚ} (h0 : 0 ≤ t) (h1 : t ≤ 1)
    (hp1 : p.1 = (1 - t) * a.1 + t * b.1) (hp2 : p.2 = (1 - t) * a.2 + t * b.2) :
    onSegment a b p = true := by
  unfold onSegment
  by_cases hab : a = b
  · rw [if_pos hab]
    apply decide_eq_true
    subst hab
    have e1 : p.1 = a.1 := by rw [hp1]; ring
    have e2 : p.2 = a.2 := by rw [hp2]; ring
    exact Prod.ext e1 e2
  · rw [if_neg hab]
    apply decide_eq_true
    have hS : 0 < sqdist a b := sqdist_pos_of_ne hab
    have hdt : dotAt a p b = t * sqdist a b := by
      unfold dotAt sqdist
      rw [hp1, hp2]
      ring
    refine ⟨?_, ?_, ?_⟩
    · unfold orient
      rw [hp1, hp2]
      ring
    · rw [hdt]
      exact mul_nonneg h0 (le_of_lt hS)
    · rw [hdt]
      nlinarith
lemma inTriangle_sound {a b c p : Q2} (h : inTriangle a b c p = true) :
    ∃ w1 w2 w3 : ℚ, 0 ≤ w1 ∧ 0 ≤ w2 ∧ 0 ≤ w3 ∧ w1 + w2 + w3 = 1 ∧
      p.1 = w1 * a.1 + w2 * b.1 + w3 * c.1 ∧ p.2 = w1 * a.2 + w2 * b.2 + w3 * c.2 := by
  unfold inTriangle at h
  obtain ⟨hD, hs1, hs2, hs3⟩ := of_decide_eq_true h
  obtain ⟨hsum, hx, hy⟩ := barycentric_identity a b c p hD
  have hD2 : 0 < orient a b c * orient a b c :=
    lt_of_le_of_ne (mul_self_nonneg _) (by
      intro hcon
      exact hD (by nlinarith))
  refine ⟨orient p b c / orient a b c, orient a p c / orient a b c,
    orient a b p / orient a b c, ?_, ?_, ?_, hsum, hx, hy⟩
  · rw [show orient p b c / orient a b c =
      orient a b c * orient p b c / (orient a b c * orient a b c) by
        rw [mul_div_mul_left _ _ hD]]
    exact div_nonneg hs1 (le_of_lt hD2)
  · rw [show orient a p c / orient a b c =
      orient a b c * orient a p c / (orient a b c * orient a b c) by
        rw [mul_div_mul_left _ _ hD]]
    exact div_nonneg hs2 (le_of_lt hD2)
  · rw [show orient a b p / orient a b c =
      orient a b c * orient a b p / (orient a b c * orient a b c) by
        rw [mul_div_mul_left _ _ hD]]
    exact div_nonneg hs3 (le_of_lt hD2)

lemma inTriangle_complete {a b c p : Q2} {w1 w2 w3 : ℚ} (hD : orient a b c ≠ 0)
    (h1 : 0 ≤ w1) (h2 : 0 ≤ w2) (h3 : 0 ≤ w3) (hsum : w1 + w2 + w3 = 1)
    (hp1 : p.1 = w1 * a.1 + w2 * b.1 + w3 * c.1)
    (hp2 : p.2 = w1 * a.2 + w2 * b.2 + w3 * c.2) :
    inTriangle a b c p = true := by
  unfold inTriangle
  apply decide_eq_true
  obtain ⟨e1, e2, e3⟩ := orient_affine_combo a b c p w1 w2 w3 hsum hp1 hp2
  refine ⟨hD, ?_, ?_, ?_⟩
  · rw [e1]
    calc (0 : ℚ) ≤ w1 * (orient a b c * orient a b c) :=
        mul_nonneg h1 (mul_self_nonneg _)
    _ = orient a b c * (w1 * orient a b c) := by ring
  · rw [e2]
    calc (0 : ℚ) ≤ w2 * (orient a b c * orient a b c) :=
        mul_nonneg h2 (mul_self_nonneg _)
    _ = orient a b c * (w2 * orient a b c) := by ring
  · rw [e3]
    calc (0 : ℚ) ≤ w3 * (orient a b c * orient a b c) :=
        mul_nonneg h3 (mul_self_nonneg _)
    _ = orient a b c * (w3 * orient a b c) := by ring

/-! ### Unfolding the capture test -/

lemma isCaptured_eq_true_iff {o : List Q2} {p : Q2} :
    isCaptured o p = true ↔
      (∃ a ∈ o, p = a) ∨ (∃ a ∈ o, ∃ b ∈ o, onSegment a b p = true) ∨
        (∃ a ∈ o, ∃ b ∈ o, ∃ c ∈ o, inTriangle a b c p = true) := by
  unfold isCaptured
  simp only [Bool.or_eq_true, List.any_eq_true, decide_eq_true_eq]
  exact or_assoc

lemma isCaptured_of_point {o : List Q2} {p a : Q2} (ha : a ∈ o) (h : p = a) :
    isCaptured o p = true :=
  isCaptured_eq_true_iff.mpr (Or.inl ⟨a, ha, h⟩)

lemma isCaptured_of_segment {o : List Q2} {p a b : Q2} (ha : a ∈ o) (hb : b ∈ o)
    (h : onSegment a b p = true) : isCaptured o p = true :=
  isCaptured_eq_true_iff.mpr (Or.inr (Or.inl ⟨a, ha, b, hb, h⟩))

lemma isCaptured_of_triangle {o : List Q2} {p a b c : Q2} (ha : a ∈ o) (hb : b ∈ o)
    (hc : c ∈ o) (h : inTriangle a b c p = true) : isCaptured o p = true :=
  isCaptured_eq_true_iff.mpr (Or.inr (Or.inr ⟨a, ha, b, hb, c, hc, h⟩))

/-- The lexicographically least point of a deduplicated list is never captured
by the others: it is a genuine hull vertex. -/
lemma not_captured_lexmin {d : List Q2} {m : Q2} (hnd : d.Nodup)
    (hmin : ∀ q ∈ d, q ≠ m → lexLt m q) : isCaptured (d.erase m) m = false := by
  cases hc : isCaptured (d.erase m) m with
  | false => rfl
  | true =>
    exfalso
    have hlex : ∀ q ∈ d.erase m, lexLt m q := by
      intro q hq
      obtain ⟨hne, hqd⟩ := (List.Nodup.mem_erase_iff hnd).mp hq
      exact hmin q hqd hne
    rcases isCaptured_eq_true_iff.mp hc with ⟨a, ha, hpa⟩ | ⟨a, ha, b, hb, hseg⟩ |
      ⟨a, ha, b, hb, c, hcc, htri⟩
    · exact ((List.Nodup.mem_erase_iff hnd).mp ha).1 hpa.symm
    · obtain ⟨t, ht0, ht1, he1, he2⟩ := onSegment_sound hseg
      exact no_combo_of_lexLt m a b a (1 - t) t 0 (by linarith) ht0 (le_refl 0)
        (by ring) (by rw [he1]; ring) (by rw [he2]; ring)
        (hlex a ha) (hlex b hb) (hlex a ha)
    · obtain ⟨w1, w2, w3, h1, h2, h3, hsum, hp1, hp2⟩ := inTriangle_sound htri
      exact no_combo_of_lexLt m a b c w1 w2 w3 h1 h2 h3 hsum hp1 hp2
        (hlex a ha) (hlex b hb) (hlex c hcc)

/-- The lexicographically greatest point of a deduplicated list is never
captured by the others. -/
lemma not_captured_lexmax {d : List Q2} {m : Q2} (hnd : d.Nodup)
    (hmax : ∀ q ∈ d, q ≠ m → lexLt q m) : isCaptured (d.erase m) m = false := by
  cases hc : isCaptured (d.erase m) m with
  | false => rfl
  | true =>
    exfalso
    have hlex : ∀ q ∈ d.erase m, lexLt q m := by
      intro q hq
      obtain ⟨hne, hqd⟩ := (List.Nodup.mem_erase_iff hnd).mp hq
      exact hmax q hqd hne
    rcases isCaptured_eq_true_iff.mp hc with ⟨a, ha, hpa⟩ | ⟨a, ha, b, hb, hseg⟩ |
      ⟨a, ha, b, hb, c, hcc, htri⟩
    · exact ((List.Nodup.mem_erase_iff hnd).mp ha).1 hpa.symm
    · obtain ⟨t, ht0, ht1, he1, he2⟩ := onSegment_sound hseg
      exact no_combo_of_lexGt m a b a (1 - t) t 0 (by linarith) ht0 (le_refl 0)
        (by ring) (by rw [he1]; ring) (by rw [he2]; ring)
        (hlex a ha) (hlex b hb) (hlex a ha)
    · obtain ⟨w1, w2, w3, h1, h2, h3, hsum, hp1, hp2⟩ := inTriangle_sound htri
      exact no_combo_of_lexGt m a b c w1 w2 w3 h1 h2 h3 hsum hp1 hp2
        (hlex a ha) (hlex b hb) (hlex c hcc)

/-! ### From a vanishing determinant to collinearity -/

lemma collinear_of_orient_eq_zero {a b c : Q2} (h : orient a b c = 0) :
    Collinear ℚ ({a, b, c} : Set Q2) := by
  by_cases hab : b = a
  · subst hab
    rw [Set.insert_comm, Set.insert_idem]
    exact collinear_pair ℚ b c
  · rw [collinear_iff_of_mem (Set.mem_insert a {b, c})]
    refine ⟨b - a, ?_⟩
    intro p hp
    simp only [Set.mem_insert_iff, Set.mem_singleton_iff] at hp
    rcases hp with rfl | rfl | rfl
    · exact ⟨0, by simp⟩
    · exact ⟨1, by simp⟩
    · by_cases hx : b.1 - a.1 = 0
      · have hy : b.2 - a.2 ≠ 0 := by
          intro hy0
          apply hab
          have e1 : b.1 = a.1 := by linarith
          have e2 : b.2 = a.2 := by linarith
          exact Prod.ext e1 e2
        refine ⟨(p.2 - a.2) / (b.2 - a.2), ?_⟩
        have hc1 : p.1 = a.1 := by
          unfold orient at h
          have : (b.2 - a.2) * (p.1 - a.1) = 0 := by linear_combination -h + (p.2 - a.2) * hx
          rcases mul_eq_zero.mp this with h0 | h0
          · exact absurd h0 hy
          · linarith
        apply Prod.ext
        · simp only [Prod.fst_vadd, Prod.smul_fst, Prod.fst_sub, smul_eq_mul]
          rw [hx]
          simpa using hc1
        · simp only [Prod.snd_vadd, Prod.smul_snd, Prod.snd_sub, smul_eq_mul]
          field_simp
      · refine ⟨(p.1 - a.1) / (b.1 - a.1), ?_⟩
        apply Prod.ext
        · simp only [Prod.fst_vadd, Prod.smul_fst, Prod.fst_sub, smul_eq_mul]
          field_simp
        · simp only [vadd_eq_add, Prod.snd_add, Prod.smul_snd, Prod.snd_sub, smul_eq_mul]
          unfold orient at h
          rw [div_mul_eq_mul_div, div_add' _ _ _ hx, eq_div_iff hx]
          linear_combination h

lemma orient_ne_zero_of_affineIndependent {a b c : Q2}
    (hai : AffineIndependent ℚ ![a, b, c]) : orient a b c ≠ 0 := by
  intro h0
  exact (affineIndependent_iff_not_collinear_set.mp hai) (collinear_of_orient_eq_zero h0)

/-- Transporting affine independence of a finset coercion to an explicit
triple of its elements. -/
lemma affineIndependent_triple {t : Finset Q2} {a b c : Q2}
    (hai : AffineIndependent ℚ ((↑) : {x // x ∈ t} → Q2))
    (ha : a ∈ t) (hb : b ∈ t) (hc : c ∈ t) (hab : a ≠ b) (hac : a ≠ c) (hbc : b ≠ c) :
    AffineIndependent ℚ ![a, b, c] := by
  have hinj : Function.Injective (![⟨a, ha⟩, ⟨b, hb⟩, ⟨c, hc⟩] : Fin 3 → {x // x ∈ t}) := by
    intro i j hij
    fin_cases i <;> fin_cases j <;> simp_all [Subtype.ext_iff]
  have h2 := hai.comp_embedding
    (⟨![⟨a, ha⟩, ⟨b, hb⟩, ⟨c, hc⟩], hinj⟩ : Fin 3 ↪ {x // x ∈ t})
  have heq : ((↑) : {x // x ∈ t} → Q2) ∘
      ⇑(⟨![⟨a, ha⟩, ⟨b, hb⟩, ⟨c, hc⟩], hinj⟩ : Fin 3 ↪ {x // x ∈ t}) = ![a, b, c] := by
    funext i
    fin_cases i <;> rfl
  rwa [heq] at h2

/-- An affinely independent finset of exact plane points has at most three
elements. -/
lemma card_le_three_of_affineIndependent {t : Finset Q2}
    (hai : AffineIndependent ℚ ((↑) : {x // x ∈ t} → Q2)) : t.card ≤ 3 := by
  have h1 := hai.card_le_finrank_succ
  have h2 : Module.finrank ℚ (vectorSpan ℚ (Set.range ((↑) : {x // x ∈ t} → Q2))) ≤
      Module.finrank ℚ Q2 := Submodule.finrank_le _
  have h3 : Module.finrank ℚ Q2 = 2 := by
    rw [Module.finrank_prod, Module.finrank_self]
  rw [Fintype.card_coe] at h1
  omega

/-- Carathéodory bridge: membership in the convex hull of a finite point list
is always detected by the decidable capture test. -/
lemma captured_of_mem_convexHull {o : List Q2} {p : Q2}
    (hp : p ∈ convexHull ℚ {q : Q2 | q ∈ o}) : isCaptured o p = true := by
  rw [convexHull_eq_union] at hp
  simp only [Set.mem_iUnion] at hp
  obtain ⟨t, hts, hai, hpt⟩ := hp
  have hto : ∀ x ∈ t, x ∈ o := fun x hx => hts (Finset.mem_coe.mpr hx)
  have hcard := card_le_three_of_affineIndependent hai
  rw [Finset.convexHull_eq] at hpt
  simp only [Set.mem_setOf_eq] at hpt
  obtain ⟨w, hw0, hw1, hcm⟩ := hpt
  rw [Finset.centerMass_eq_of_sum_1 _ _ hw1] at hcm
  have hcases : t.card = 0 ∨ t.card = 1 ∨ t.card = 2 ∨ t.card = 3 := by omega
  rcases hcases with h0 | h1 | h2 | h3
  · exfalso
    rw [Finset.card_eq_zero.mp h0] at hw1
    simp at hw1
  · obtain ⟨a, rfl⟩ := Finset.card_eq_one.mp h1
    rw [Finset.sum_singleton] at hw1
    rw [Finset.sum_singleton, id, hw1, one_smul] at hcm
    exact isCaptured_of_point (hto a (Finset.mem_singleton_self a)) hcm.symm
  · obtain ⟨a, b, hab, rfl⟩ := Finset.card_eq_two.mp h2
    have hma : a ∈ ({a, b} : Finset Q2) := Finset.mem_insert_self a {b}
    have hmb : b ∈ ({a, b} : Finset Q2) := Finset.mem_insert.mpr (Or.inr (Finset.mem_singleton_self b))
    rw [Finset.sum_pair hab] at hw1
    rw [Finset.sum_pair hab] at hcm
    have hx := congrArg Prod.fst hcm
    have hy := congrArg Prod.snd hcm
    simp only [Prod.fst_add, Prod.snd_add, Prod.smul_fst, Prod.smul_snd, smul_eq_mul, id] at hx hy
    have hwa := hw0 a hma
    have hwb := hw0 b hmb
    refine isCaptured_of_segment (hto a hma) (hto b hmb)
      (onSegment_complete (t := w b) hwb (by linarith) ?_ ?_)
    · linear_combination (-1 : ℚ) * hx + a.1 * hw1
    · linear_combination (-1 : ℚ) * hy + a.2 * hw1
  · obtain ⟨a, b, c, hab, hac, hbc, rfl⟩ := Finset.card_eq_three.mp h3
    have hma : a ∈ ({a, b, c} : Finset Q2) := Finset.mem_insert_self a {b, c}
    have hmb : b ∈ ({a, b, c} : Finset Q2) :=
      Finset.mem_insert.mpr (Or.inr (Finset.mem_insert_self b {c}))
    have hmc : c ∈ ({a, b, c} : Finset Q2) :=
      Finset.mem_insert.mpr (Or.inr (Finset.mem_insert.mpr
        (Or.inr (Finset.mem_singleton_self c))))
    have hanotin : a ∉ ({b, c} : Finset Q2) := by
      simp [hab, hac]
    rw [Finset.sum_insert hanotin, Finset.sum_pair hbc] at hw1
    rw [Finset.sum_insert hanotin, Finset.sum_pair hbc] at hcm
    have hx := congrArg Prod.fst hcm
    have hy := congrArg Prod.snd hcm
    simp only [Prod.fst_add, Prod.snd_add, Prod.smul_fst, Prod.smul_snd, smul_eq_mul, id] at hx hy
    have hD : orient a b c ≠ 0 :=
      orient_ne_zero_of_affineIndependent (affineIndependent_triple hai hma hmb hmc hab hac hbc)
    refine isCaptured_of_triangle (hto a hma) (hto b hmb) (hto c hmc)
      (inTriangle_complete hD (hw0 a hma) (hw0 b hmb) (hw0 c hmc) (by linarith) ?_ ?_)
    · linarith
    · linarith

/-! ### The centroid of a point list lies in its convex hull -/

lemma fst_sum (l : List Q2) : l.sum.1 = (l.map Prod.fst).sum := by
  induction l with
  | nil => rfl
  | cons a t ih => simp [ih]

lemma snd_sum (l : List Q2) : l.sum.2 = (l.map Prod.snd).sum := by
  induction l with
  | nil => rfl
  | cons a t ih => simp [ih]

lemma get_sum (l : List Q2) : ∑ i : Fin l.length, l.get i = l.sum := by
  induction l with
  | nil => simp
  | cons a t ih => simp [Fin.sum_univ_succ, ih]

lemma centroid_mem_convexHull (l : List Q2) (h : l ≠ []) :
    centroid l ∈ convexHull ℚ {q : Q2 | q ∈ l} := by
  have hn : 0 < l.length := List.length_pos.mpr h
  have hnq : ((l.length : ℚ)) ≠ 0 := by
    exact_mod_cast Nat.pos_iff_ne_zero.mp hn
  apply mem_convexHull_of_exists_fintype (fun _ : Fin l.length => (l.length : ℚ)⁻¹) l.get
  · intro i
    positivity
  · rw [Finset.sum_const, Finset.card_univ, Fintype.card_fin, nsmul_eq_mul]
    field_simp
  · intro i
    exact List.get_mem l i.1 i.2
  · rw [← Finset.smul_sum, get_sum]
    apply Prod.ext <;> simp [centroid, fst_sum, snd_sum, div_eq_inv_mul]

/-- Removing a point that equals the centroid leaves the centroid of the rest
unchanged. -/
lemma centroid_erase {V : List Q2} {p : Q2} (hp : p ∈ V) (hlen : 2 ≤ V.length)
    (hc : centroid V = p) : centroid (V.erase p) = p := by
  have hperm : List.Perm V (p :: V.erase p) := List.perm_cons_erase hp
  have hsum1 : (V.map Prod.fst).sum = p.1 + ((V.erase p).map Prod.fst).sum := by
    have := (hperm.map Prod.fst).sum_eq
    simpa using this
  have hsum2 : (V.map Prod.snd).sum = p.2 + ((V.erase p).map Prod.snd).sum := by
    have := (hperm.map Prod.snd).sum_eq
    simpa using this
  have hlenE : V.length = (V.erase p).length + 1 := by
    have := hperm.length_eq
    simpa using this
  have hm1 : 1 ≤ (V.erase p).length := by omega
  have hmq : (((V.erase p).length : ℚ)) ≠ 0 := by
    exact_mod_cast Nat.pos_iff_ne_zero.mp hm1
  have hnq : ((V.length : ℚ)) ≠ 0 := by
    have : 0 < V.length := by omega
    exact_mod_cast Nat.pos_iff_ne_zero.mp this
  have hcast : ((V.length : ℚ)) = ((V.erase p).length : ℚ) + 1 := by
    exact_mod_cast congrArg (fun n : ℕ => (n : ℚ)) hlenE
  have hc1 : (V.map Prod.fst).sum / (V.length : ℚ) = p.1 := congrArg Prod.fst hc
  have hc2 : (V.map Prod.snd).sum / (V.length : ℚ) = p.2 := congrArg Prod.snd hc
  rw [div_eq_iff hnq] at hc1 hc2
  apply Prod.ext
  · show ((V.erase p).map Prod.fst).sum / ((V.erase p).length : ℚ) = p.1
    rw [div_eq_iff hmq]
    have : p.1 + ((V.erase p).map Prod.fst).sum = p.1 * (((V.erase p).length : ℚ) + 1) := by
      rw [← hsum1, ← hcast, hc1]
    linarith
  · show ((V.erase p).map Prod.snd).sum / ((V.erase p).length : ℚ) = p.2
    rw [div_eq_iff hmq]
    have : p.2 + ((V.erase p).map Prod.snd).sum = p.2 * (((V.erase p).length : ℚ) + 1) := by
      rw [← hsum2, ← hcast, hc2]
    linarith

/-! ### The hull model: vertices are extreme, away from their centroid -/

lemma hullVertexList_eq (pts : List Q2) :
    hullVertexList pts = pts.dedup.filter (fun p => !isCaptured (pts.dedup.erase p) p) := rfl

lemma erase_subset_setOf {V d : List Q2} {p : Q2} (hVd : ∀ q ∈ V, q ∈ d) (hVnd : V.Nodup) :
    {q : Q2 | q ∈ V.erase p} ⊆ {q : Q2 | q ∈ d.erase p} := by
  intro q hq
  obtain ⟨hne, hqV⟩ := (List.Nodup.mem_erase_iff hVnd).mp hq
  exact (List.mem_erase_of_ne hne).mpr (hVd q hqV)

lemma two_le_length_of_two_mem {α : Type} {l : List α} {x y : α}
    (hx : x ∈ l) (hy : y ∈ l) (hxy : x ≠ y) : 2 ≤ l.length := by
  cases l with
  | nil => cases hx
  | cons a t =>
    rcases List.mem_cons.mp hx with rfl | hxt
    · rcases List.mem_cons.mp hy with rfl | hyt
      · exact absurd rfl hxy
      · have := List.length_pos.mpr (List.ne_nil_of_mem hyt)
        simp only [List.length_cons]
        omega
    · have := List.length_pos.mpr (List.ne_nil_of_mem hxt)
      simp only [List.length_cons]
      omega

lemma allCollinear_false_two_distinct {pts : List Q2} (h : allCollinear pts = false) :
    ∃ x ∈ pts.dedup, ∃ y ∈ pts.dedup, x ≠ y := by
  have hne : ¬(allCollinear pts = true) := by simp [h]
  unfold allCollinear at hne
  simp only [List.all_eq_true, decide_eq_true_eq] at hne
  push_neg at hne
  obtain ⟨a, ha, b, hb, c, hc, hor⟩ := hne
  by_cases hab : a = b
  · exfalso
    apply hor
    rw [hab]
    exact orient_self_left b c
  · exact ⟨a, List.mem_dedup.mpr ha, b, List.mem_dedup.mpr hb, hab⟩

/-- A non-degenerate input has at least two distinct hull vertices: its
lexicographic extremes pass the extremality test. -/
lemma hull_has_two_vertices {pts : List Q2} (hcol : allCollinear pts = false) :
    ∃ x ∈ hullVertexList pts, ∃ y ∈ hullVertexList pts, x ≠ y := by
  obtain ⟨u, hu, v, hv, huv⟩ := allCollinear_false_two_distinct hcol
  have hdne : pts.dedup ≠ [] := List.ne_nil_of_mem hu
  have hnd := List.nodup_dedup pts
  obtain ⟨m, hm, hmin⟩ := exists_lexmin pts.dedup hdne
  obtain ⟨M, hM, hmax⟩ := exists_lexmax pts.dedup hdne
  have hmM : m ≠ M := by
    intro he
    subst he
    have hall : ∀ q ∈ pts.dedup, q = m := by
      intro q hq
      by_contra hne2
      exact lexLt_asymm (hmin q hq hne2) (hmax q hq hne2)
    exact huv ((hall u hu).trans (hall v hv).symm)
  rw [hullVertexList_eq]
  refine ⟨m, List.mem_filter.mpr ⟨hm, ?_⟩, M, List.mem_filter.mpr ⟨hM, ?_⟩, hmM⟩
  · rw [not_captured_lexmin hnd hmin]
    rfl
  · rw [not_captured_lexmax hnd hmax]
    rfl

/-- Core geometric safety fact: a hull vertex of a non-degenerate input never
coincides with the centroid of the hull vertices.  If it did, it would be the
mean of the remaining vertices, hence in their convex hull, and by the
Carathéodory bridge the extremality test would have rejected it. -/
lemma hull_vertex_ne_centroid {pts : List Q2} (hcol : allCollinear pts = false)
    {p : Q2} (hp : p ∈ hullVertexList pts) : p ≠ centroid (hullVertexList pts) := by
  intro hceq
  have hVnd : (hullVertexList pts).Nodup := by
    rw [hullVertexList_eq]
    exact (List.nodup_dedup pts).filter _
  have hVsub : ∀ q ∈ hullVertexList pts, q ∈ pts.dedup := by
    intro q hq
    rw [hullVertexList_eq] at hq
    exact (List.mem_filter.mp hq).1
  have hpass : isCaptured (pts.dedup.erase p) p = false := by
    have h2 := (List.mem_filter.mp (by rw [hullVertexList_eq] at hp; exact hp)).2
    simpa using h2
  obtain ⟨x, hx, y, hy, hxy⟩ := hull_has_two_vertices hcol
  have hlen2 : 2 ≤ (hullVertexList pts).length := two_le_length_of_two_mem hx hy hxy
  have hcent : centroid ((hullVertexList pts).erase p) = p :=
    centroid_erase hp hlen2 hceq.symm
  have hene : (hullVertexList pts).erase p ≠ [] := by
    have hle := List.length_erase_of_mem hp
    have : 0 < ((hullVertexList pts).erase p).length := by omega
    exact List.ne_nil_of_length_pos this
  have hmem := centroid_mem_convexHull ((hullVertexList pts).erase p) hene
  rw [hcent] at hmem
  have hcap := captured_of_mem_convexHull
    (convexHull_mono (erase_subset_setOf hVsub hVnd) hmem)
  rw [hpass] at hcap
  cases hcap

/-- Successful hull computation yields vertices at positive squared distance
from the hull centroid. -/
lemma hull_success_vertex_pos {pts hv : List Q2} (hh : ConvexHullVerts pts = some hv)
    {v : Q2} (hm : v ∈ hv) : 0 < sqdist v (centroid hv) := by
  unfold ConvexHullVerts at hh
  cases hcol : allCollinear pts with
  | true =>
    rw [hcol] at hh
    simp at hh
  | false =>
    rw [hcol] at hh
    simp only [Bool.false_eq_true, if_false, Option.some.injEq] at hh
    subst hh
    exact sqdist_pos_of_ne (hull_vertex_ne_centroid hcol hm)

/-! ## Claim C9: no division by zero in the hull buffering -/

/-- Rectangle with hull-vertex distances 5 from the centroid (3, 4). -/
def rectPts : List Q2 := [(0, 0), (6, 0), (6, 8), (0, 8)]

/-- C9: whenever the hull computation succeeds, every hull vertex is at
strictly positive (squared) distance from the centroid of the hull vertices,
so the normalization `vectors / lengths` divides by a nonzero length and the
buffered polygon has finite rational coordinates (no NaN or infinity can
arise in the modelled exact arithmetic). -/
theorem hull_vertex_positive_distance (pts hv : List Q2)
    (hh : ConvexHullVerts pts = some hv) (v : Q2) (hm : v ∈ hv) :
    0 < sqdist v (centroid hv) :=
  hull_success_vertex_pos hh hm

/-- C9 witness: the rectangle's first vertex sits at squared distance 25 > 0
from the hull centroid. -/
theorem hull_vertex_positive_distance_witness :
    0 < sqdist (0, 0) (centroid rectPts) :=
  hull_vertex_positive_distance rectPts rectPts (by decide) (0, 0) (by decide)

/-! ## Claim C3: the buffered vertex is farther by exactly the margin -/

/-- C3: for every successfully computed hull, each buffered vertex lies
strictly farther from the hull centroid than the raw vertex, and its distance
is exactly the raw distance plus the margin 0.5: with `len` the (nonnegative)
square root of the squared centroid distance, the buffered vertex's squared
distance equals `(len + 1/2)^2`. -/
theorem buffered_vertex_distance (s : ℚ → ℚ) (pts hv : List Q2)
    (hh : ConvexHullVerts pts = some hv) (v : Q2) (hm : v ∈ hv)
    (hs0 : 0 ≤ s (sqdist v (centroid hv)))
    (hs2 : s (sqdist v (centroid hv)) * s (sqdist v (centroid hv)) = sqdist v (centroid hv)) :
    sqdist (bufferVertex (centroid hv) v (s (sqdist v (centroid hv)))) (centroid hv)
      = (s (sqdist v (centroid hv)) + 1 / 2) ^ 2 ∧
    sqdist v (centroid hv)
      < sqdist (bufferVertex (centroid hv) v (s (sqdist v (centroid hv)))) (centroid hv) := by
  have hq := hull_success_vertex_pos hh hm
  set c := centroid hv
  set L := s (sqdist v c) with hLdef
  have hL0 : L ≠ 0 := by
    intro h0
    rw [h0] at hs2
    nlinarith
  have hLpos : 0 < L := lt_of_le_of_ne hs0 (Ne.symm hL0)
  have hkey : sqdist (bufferVertex c v L) c = (L + 1 / 2) ^ 2 := by
    unfold sqdist bufferVertex
    unfold sqdist at hs2
    field_simp
    ring_nf
    nlinarith [hs2, sq_nonneg L]
  refine ⟨hkey, ?_⟩
  rw [hkey]
  nlinarith [hs2]

/-- C3 witness: the rectangle vertex (0, 0), at distance 5 from the centroid
(3, 4), is buffered to distance 5.5 exactly. -/
theorem buffered_vertex_distance_witness :
    sqdist (bufferVertex (centroid rectPts) (0, 0) (demoSqrt (sqdist (0, 0) (centroid rectPts))))
      (centroid rectPts) = (demoSqrt (sqdist (0, 0) (centroid rectPts)) + 1 / 2) ^ 2 ∧
    sqdist (0, 0) (centroid rectPts)
      < sqdist (bufferVertex (centroid rectPts) (0, 0)
          (demoSqrt (sqdist (0, 0) (centroid rectPts)))) (centroid rectPts) :=
  buffered_vertex_distance demoSqrt rectPts rectPts (by decide) (0, 0) (by decide)
    (by decide) (by decide)

/-! ## Claim C4: boundary polygons exist exactly for big enough clusters -/

lemma closed_poly_head_last {l : List Q2} (h : l ≠ []) :
    (l ++ [l.headI]).head? = (l ++ [l.headI]).getLast? := by
  cases l with
  | nil => exact absurd rfl h
  | cons a t =>
    have h1 : ((a :: t) ++ [(a :: t).headI]).head? = some a := by simp
    have h2 : ((a :: t) ++ [(a :: t).headI]).getLast? = some a := by
      rw [List.getLast?_concat]
      simp
    rw [h1, h2]

/-- C4: a cluster with fewer than three members yields no boundary polygon;
a cluster of three or more non-collinear points always yields a polygon,
which is closed: its first vertex equals its last vertex exactly. -/
theorem cluster_boundary_cases (s : ℚ → ℚ) (pts : List Q2) :
    (pts.length < 3 → clusterBoundary s pts = .ok none) ∧
    (3 ≤ pts.length → allCollinear pts = false →
      ∃ poly, clusterBoundary s pts = .ok (some poly) ∧ poly ≠ [] ∧
        poly.head? = poly.getLast?) := by
  constructor
  · intro hlen
    unfold clusterBoundary
    rw [if_neg (by omega)]
  · intro hlen hcol
    have hch : ConvexHullVerts pts = some (hullVertexList pts) := by
      unfold ConvexHullVerts
      rw [hcol]
      rfl
    unfold clusterBoundary
    rw [if_pos hlen, hch]
    refine ⟨bufferedClosed s (hullVertexList pts), rfl, ?_, ?_⟩
    · obtain ⟨x, hx, _, _, _⟩ := hull_has_two_vertices hcol
      have hhne : hullVertexList pts ≠ [] := List.ne_nil_of_mem hx
      unfold bufferedClosed
      simp
    · obtain ⟨x, hx, _, _, _⟩ := hull_has_two_vertices hcol
      have hhne : hullVertexList pts ≠ [] := List.ne_nil_of_mem hx
      have hmapne : (hullVertexList pts).map (fun v =>
          bufferVertex (centroid (hullVertexList pts)) v
            (s (sqdist v (centroid (hullVertexList pts))))) ≠ [] := by
        simpa using hhne
      exact closed_poly_head_last hmapne

/-- C4 witness: a two-point cluster produces no polygon; the rectangle
produces a closed polygon. -/
theorem cluster_boundary_cases_witness :
    clusterBoundary demoSqrt [((0 : ℚ), (0 : ℚ)), (1, 1)] = .ok none ∧
    (∃ poly, clusterBoundary demoSqrt rectPts = .ok (some poly) ∧ poly ≠ [] ∧
      poly.head? = poly.getLast?) :=
  ⟨(cluster_boundary_cases demoSqrt [(0, 0), (1, 1)]).1 (by decide),
    (cluster_boundary_cases demoSqrt rectPts).2 (by decide) (by decide)⟩

/-! ## Claim C8: the geometry step is a pure function of the cluster points -/

/-- C8: the cluster boundary computation is deterministic and idempotent:
it depends only on the cluster's points and on the square roots of the
squared centroid distances those points determine.  Any two square-root
models that agree on the distances arising from the points produce the same
polygon; in particular two invocations with the same points (and the same
square-root model) always yield the same polygon, so there is no hidden
randomness inside the geometry step (the jitter is applied outside it, in
`main`, before the points reach it). -/
theorem cluster_boundary_deterministic (s1 s2 : ℚ → ℚ) (pts : List Q2)
    (hagree : ∀ hv, ConvexHullVerts pts = some hv →
      ∀ v ∈ hv, s1 (sqdist v (centroid hv)) = s2 (sqdist v (centroid hv))) :
    clusterBoundary s1 pts = clusterBoundary s2 pts := by
  unfold clusterBoundary
  by_cases hlen : 3 ≤ pts.length
  · rw [if_pos hlen, if_pos hlen]
    cases hch : ConvexHullVerts pts with
    | none => rfl
    | some hv =>
      have hag := hagree hv hch
      have hmap : hv.map (fun v => bufferVertex (centroid hv) v (s1 (sqdist v (centroid hv))))
          = hv.map (fun v => bufferVertex (centroid hv) v (s2 (sqdist v (centroid hv)))) :=
        List.map_congr_left (fun v hv2 => by rw [hag v hv2])
      have hbuf : bufferedClosed s1 hv = bufferedClosed s2 hv := by
        show (hv.map (fun v => bufferVertex (centroid hv) v (s1 (sqdist v (centroid hv))))) ++
            [(hv.map (fun v =>
              bufferVertex (centroid hv) v (s1 (sqdist v (centroid hv))))).headI] =
          (hv.map (fun v => bufferVertex (centroid hv) v (s2 (sqdist v (centroid hv))))) ++
            [(hv.map (fun v =>
              bufferVertex (centroid hv) v (s2 (sqdist v (centroid hv))))).headI]
        rw [hmap]
      simp only [hbuf]
  · rw [if_neg hlen, if_neg hlen]

/-- A second square-root model differing from `demoSqrt` away from the values
the triangle produces. -/
def demoSqrtAlt : ℚ → ℚ := fun q => if q = 25 then 5 else if q = 64 then 8 else 1

/-- The demo triangle with centroid (0, 4) and vertex distances 5, 5, 8. -/
def triPts : List Q2 := [(-3, 0), (3, 0), (0, 12)]

/-- C8 witness: the two square-root models agree on the triangle's distances,
so the boundary polygons coincide. -/
theorem cluster_boundary_deterministic_witness :
    clusterBoundary demoSqrt triPts = clusterBoundary demoSqrtAlt triPts :=
  cluster_boundary_deterministic demoSqrt demoSqrtAlt triPts (by
    intro hv h
    have h2 : ConvexHullVerts triPts = some triPts := by decide
    rw [h2] at h
    injection h with h3
    subst h3
    intro v hm
    have hm2 : v = ((-3 : ℚ), (0 : ℚ)) ∨ v = (3, 0) ∨ v = (0, 12) := by
      simpa [triPts] using hm
    rcases hm2 with rfl | rfl | rfl <;> decide)

end PolisLite
